import Mathlib

/-!
Verification of the c-sundry core: the atomic reference counter (CRef,
from the c-ref header) and the intrusive doubly-linked list (CList, from
c-list.h).

Modelling conventions:
* C pointers are `Option` values: `none` is NULL.
* The counter field `n_refs` has C type `unsigned long`; it is modelled as
  a `Nat` together with explicit reduction modulo `2 ^ 64` wherever the C
  arithmetic can wrap.
* `assert` failures (which abort the process) are modelled by returning
  `none` from an `Option`-valued function: `none` means the call aborted,
  `some r` means it returned normally with observable outcome `r`.
* Each operation is a single atomic read-modify-write on the counter, so a
  concurrent execution is an interleaving, i.e. a sequence, of operations;
  memory-fence contents (release/acquire orderings) are not modelled, only
  the functional behaviour.
-/

/-- Modulus of the C type `unsigned long` (LP64, as on Linux). -/
def ULONG_MOD : Nat := 2 ^ 64

/-- Wrapping addition of `unsigned long` values. -/
def uadd (a b : Nat) : Nat := (a + b) % ULONG_MOD

/-- Wrapping subtraction of `unsigned long` values (two's complement). -/
def usub (a b : Nat) : Nat := (a + (ULONG_MOD - b % ULONG_MOD)) % ULONG_MOD

/-- Release callbacks that appear in the spec scenario.  `c_ref_sub` treats
the callback abstractly; this type only serves to distinguish the three
callbacks of the end-to-end example. -/
inductive CRefFn where
  | noop
  | unreachable
  | record
deriving DecidableEq, Repr

/-- Model of `c_ref_unreachable`, whose body is `assert(0)`: invoking it
always aborts. -/
def c_ref_unreachable : Option Unit := none

/-- Model of `c_ref_add(ref, n)`.  The input pointer is `none` for NULL or
`some v` for a counter holding `v`.  The result is `none` when an assert
fires, otherwise `some (ret, cnt)` where `ret : Option Unit` is the returned
pointer (`some ()` stands for `ref` itself, `none` for NULL) and `cnt` the
counter value after the call.

Source: `assert(n > 0); if (ref) { n_refs = fetch_add(&ref->n_refs, n);
assert(n_refs > 0); } return ref;` where `fetch_add` yields the previous
value and stores the wrapped sum. -/
def c_ref_add (ref : Option Nat) (n : Nat) : Option (Option Unit × Option Nat) :=
  if n = 0 then none
  else
    match ref with
    | none => some (none, none)
    | some v =>
        if v = 0 then none
        else some (some (), some (uadd v n))

/-- Model of `c_ref_add_unless_zero(ref, n)`.  In a sequential step the CAS
loop succeeds on its first iteration, so the loop reduces to: load the
value; if it is 0 return NULL without touching the counter; otherwise store
the wrapped sum and return `ref`. -/
def c_ref_add_unless_zero (ref : Option Nat) (n : Nat) :
    Option (Option Unit × Option Nat) :=
  if n = 0 then none
  else
    match ref with
    | none => some (none, none)
    | some v =>
        if v = 0 then some (none, some v)
        else some (some (), some (uadd v n))

/-- Model of `c_ref_inc(ref)`, which is `c_ref_add(ref, 1UL)`. -/
def c_ref_inc (ref : Option Nat) : Option (Option Unit × Option Nat) :=
  c_ref_add ref 1

/-- Model of `c_ref_inc_unless_zero(ref)`, which is
`c_ref_add_unless_zero(ref, 1UL)`. -/
def c_ref_inc_unless_zero (ref : Option Nat) : Option (Option Unit × Option Nat) :=
  c_ref_add_unless_zero ref 1

/-- Model of `c_ref_sub(ref, n, func, userdata)`.  `func : Option α` is the
release callback (NULL or some callback value); the third component of the
outcome records the callback that was invoked, if any.  There is no
`assert(n > 0)` in the source of `c_ref_sub`.

Source: `if (ref) { n_refs = fetch_sub(&ref->n_refs, n); assert(n_refs >= n);
if (n_refs == n) { fence; if (func) func(ref, userdata); } } return NULL;`
where `fetch_sub` yields the previous value and stores the wrapped
difference. -/
def c_ref_sub (ref : Option Nat) (n : Nat) (func : Option α) :
    Option (Option Unit × Option Nat × Option α) :=
  match ref with
  | none => some (none, none, none)
  | some v =>
      if v < n then none
      else some (none, some (usub v n), if v = n then func else none)

/-- Model of `c_ref_dec(ref, func, userdata)`, which is
`c_ref_sub(ref, 1UL, func, userdata)`. -/
def c_ref_dec (ref : Option Nat) (func : Option α) :
    Option (Option Unit × Option Nat × Option α) :=
  c_ref_sub ref 1 func

/-- Operations of a concurrent history on one counter: each is a single
atomic read-modify-write, so an interleaving is a sequence of these. -/
inductive ROp where
  | add (n : Nat)
  | sub (n : Nat)
deriving DecidableEq, Repr

/-- Argument `n` of an operation. -/
def ROp.arg : ROp → Nat
  | .add n => n
  | .sub n => n

/-- Sum of the amounts retained by the `add` operations of a history. -/
def sumAdds : List ROp → Nat
  | [] => 0
  | .add n :: ops => n + sumAdds ops
  | .sub _ :: ops => sumAdds ops

/-- Run a history of operations on a non-NULL counter holding `v`; every
`sub` is given a non-NULL callback.  The result is `none` if some operation
aborted, otherwise `some (final, k)` with the final counter value and the
total number of callback invocations. -/
def c_ref_run : List ROp → Nat → Option (Nat × Nat)
  | [], v => some (v, 0)
  | .add n :: ops, v =>
      match c_ref_add (some v) n with
      | some (_, some v2) => c_ref_run ops v2
      | _ => none
  | .sub n :: ops, v =>
      match c_ref_sub (some v) n (some ()) with
      | some (_, some v2, inv) =>
          match c_ref_run ops v2 with
          | some (fin, k) => some (fin, k + (if inv.isSome then 1 else 0))
          | none => none
      | _ => none

/-! Arithmetic helper lemmas about the wrapping operations. -/

theorem usub_eq_sub (v n : Nat) (hv : v < ULONG_MOD) (hn : n ≤ v) :
    usub v n = v - n := by
  have hnm : n % ULONG_MOD = n := Nat.mod_eq_of_lt (lt_of_le_of_lt hn hv)
  have h1 : v + (ULONG_MOD - n) = ULONG_MOD + (v - n) := by
    have : n ≤ ULONG_MOD := le_of_lt (lt_of_le_of_lt hn hv)
    omega
  have h2 : (ULONG_MOD + (v - n)) % ULONG_MOD = (v - n) % ULONG_MOD := by
    exact Nat.add_mod_left _ _
  have h3 : (v - n) % ULONG_MOD = v - n :=
    Nat.mod_eq_of_lt (lt_of_le_of_lt (Nat.sub_le _ _) hv)
  unfold usub
  rw [hnm, h1, h2, h3]

theorem uadd_eq_add (v n : Nat) (h : v + n < ULONG_MOD) :
    uadd v n = v + n := by
  unfold uadd
  exact Nat.mod_eq_of_lt h

/-- C1: for a counter holding `v` (a valid `unsigned long`) and `v ≥ n ≥ 1`,
`c_ref_sub` returns NULL, leaves the counter at `v - n`, and the callback is
invoked exactly when `v - n = 0` (and then it is `func`, which is invoked
only when non-NULL); with `n > v` the call hits the assertion
`assert(n_refs >= n)` and aborts instead of returning an error value. -/
theorem c_ref_sub_spec (v n : Nat) (func : Option CRefFn) (hv : v < ULONG_MOD) :
    (1 ≤ n → n ≤ v →
      c_ref_sub (some v) n func
        = some (none, some (v - n), if v - n = 0 then func else none))
    ∧ (v < n → c_ref_sub (some v) n func = none) := by
  constructor
  · intro _ hnv
    simp only [c_ref_sub]
    rw [if_neg (Nat.not_lt.mpr hnv), usub_eq_sub v n hv hnv]
    by_cases hvn2 : v = n
    · rw [if_pos hvn2, if_pos (by omega)]
    · rw [if_neg hvn2, if_neg (by omega)]
  · intro hvn
    simp only [c_ref_sub]
    rw [if_pos hvn]

/-- Witness for `c_ref_sub_spec` at `v = 5`, `n = 5` and at `v = 2`, `n = 3`. -/
theorem c_ref_sub_spec_witness :
    c_ref_sub (some 5) 5 (some CRefFn.record)
        = some (none, some 0, some CRefFn.record)
    ∧ c_ref_sub (some 2) 3 (some CRefFn.record) = none := by
  constructor
  · have h := (c_ref_sub_spec 5 5 (some CRefFn.record) (by decide)).1
      (by decide) (by decide)
    simpa using h
  · exact (c_ref_sub_spec 2 3 (some CRefFn.record) (by decide)).2 (by decide)

/-- C2: the end-to-end scenario.  From a fresh counter (value 1):
retain 14 gives 15; release 13 with the noop callback gives 2 and invokes
nothing; release 1 with the unreachable callback gives 1 and invokes
nothing (so `c_ref_unreachable`, whose invocation aborts, is never run);
release 1 with the record callback gives 0 and invokes exactly the record
callback.  Each equality also shows the returned pointer (`ref` for the
retain, NULL for the releases). -/
theorem c_ref_scenario :
    c_ref_add (some 1) 14 = some (some (), some 15)
    ∧ c_ref_sub (some 15) 13 (some CRefFn.noop) = some (none, some 2, none)
    ∧ c_ref_sub (some 2) 1 (some CRefFn.unreachable) = some (none, some 1, none)
    ∧ c_ref_sub (some 1) 1 (some CRefFn.record)
        = some (none, some 0, some CRefFn.record)
    ∧ c_ref_unreachable = none := by
  refine ⟨?_, ?_, ?_, ?_, rfl⟩ <;> decide

/-- C3, counterexample: with `v = 1` and `n = 2 ^ 64 - 1` (a valid
`unsigned long` with `n ≥ 1`), `c_ref_add_unless_zero` succeeds but the
wrapping `fetch_add` leaves the counter at 0, not at `v + n = 2 ^ 64`. -/
theorem c_ref_add_unless_zero_overflow_cex :
    c_ref_add_unless_zero (some 1) (ULONG_MOD - 1) = some (some (), some 0)
    ∧ (0 : Nat) ≠ 1 + (ULONG_MOD - 1) := by
  constructor
  · simp only [c_ref_add_unless_zero, uadd, ULONG_MOD]
    norm_num
  · simp [ULONG_MOD]

/-- C3 (amended): once the counter is 0, `c_ref_add_unless_zero` (and
`c_ref_inc_unless_zero`) returns NULL and leaves the counter at 0 for every
`n ≥ 1`; when the value is `v ≥ 1` the call succeeds, returns `ref`, and
leaves the counter at `(v + n) mod 2 ^ 64` (which is `v + n` whenever the
addition does not overflow `unsigned long`). -/
theorem c_ref_add_unless_zero_spec (v n : Nat) (hn : 1 ≤ n) :
    c_ref_add_unless_zero (some 0) n = some (none, some 0)
    ∧ (1 ≤ v → c_ref_add_unless_zero (some v) n
        = some (some (), some ((v + n) % ULONG_MOD)))
    ∧ c_ref_inc_unless_zero (some 0) = some (none, some 0)
    ∧ (1 ≤ v → c_ref_inc_unless_zero (some v)
        = some (some (), some ((v + 1) % ULONG_MOD))) := by
  refine ⟨?_, ?_, ?_, ?_⟩
  · simp only [c_ref_add_unless_zero]
    rw [if_neg (by omega)]
    simp
  · intro hv
    simp only [c_ref_add_unless_zero]
    rw [if_neg (by omega), if_neg (by omega)]
    rfl
  · simp only [c_ref_inc_unless_zero, c_ref_add_unless_zero]
    rw [if_neg (by omega)]
    simp
  · intro hv
    simp only [c_ref_inc_unless_zero, c_ref_add_unless_zero]
    rw [if_neg (by omega), if_neg (by omega)]
    rfl

/-- Witness for `c_ref_add_unless_zero_spec` at `v = 7`, `n = 2`. -/
theorem c_ref_add_unless_zero_spec_witness :
    c_ref_add_unless_zero (some 0) 2 = some (none, some 0)
    ∧ c_ref_add_unless_zero (some 7) 2 = some (some (), some 9) := by
  have h := c_ref_add_unless_zero_spec 7 2 (by decide)
  refine ⟨h.1, ?_⟩
  have h2 := h.2.1 (by decide)
  rw [h2]
  norm_num [ULONG_MOD]

/-- C10: `c_ref_add` aborts on `n = 0` (it asserts `n > 0`), but `c_ref_sub`
performs no such check: for every counter value `v ≥ 1`, releasing 0
references does not abort, returns NULL, leaves the counter at `v`, and
invokes no callback; only when the counter is already 0 does the `n = 0`
call invoke the callback (the old value equals `n` there). -/
theorem c_ref_sub_zero_spec :
    (∀ ref : Option Nat, c_ref_add ref 0 = none)
    ∧ (∀ (v : Nat) (func : Option CRefFn), 1 ≤ v → v < ULONG_MOD →
        c_ref_sub (some v) 0 func = some (none, some v, none))
    ∧ (∀ func : Option CRefFn,
        c_ref_sub (some 0) 0 func = some (none, some 0, func)) := by
  refine ⟨?_, ?_, ?_⟩
  · intro ref
    simp [c_ref_add]
  · intro v func hv hvM
    simp only [c_ref_sub]
    rw [if_neg (by omega), usub_eq_sub v 0 hvM (Nat.zero_le v),
        if_neg (by omega), Nat.sub_zero]
  · intro func
    simp only [c_ref_sub]
    rw [if_neg (by omega),
        usub_eq_sub 0 0 (by norm_num [ULONG_MOD]) (Nat.zero_le 0)]
    simp

/-- Witness for `c_ref_sub_zero_spec` at `v = 4` with the record callback. -/
theorem c_ref_sub_zero_spec_witness :
    c_ref_add (some 4) 0 = none
    ∧ c_ref_sub (some 4) 0 (some CRefFn.record) = some (none, some 4, none)
    ∧ c_ref_sub (some 0) 0 (some CRefFn.record)
        = some (none, some 0, some CRefFn.record) := by
  refine ⟨c_ref_sub_zero_spec.1 (some 4), ?_, c_ref_sub_zero_spec.2.2 _⟩
  exact c_ref_sub_zero_spec.2.1 4 (some CRefFn.record) (by decide) (by decide)

/-- Helper for C9: running a legal history (every amount nonzero, no
overflow) from a live counter down to exactly 0 fires the callback exactly
once.  The proof goes by induction on the history: once the counter hits 0,
any further operation aborts, so the drop to 0 can only be the last step. -/
theorem c_ref_run_zero_once (ops : List ROp) : ∀ (v k : Nat),
    (∀ op ∈ ops, 1 ≤ ROp.arg op) → 1 ≤ v → v + sumAdds ops < ULONG_MOD →
    c_ref_run ops v = some (0, k) → k = 1 := by
  induction ops with
  | nil =>
      intro v k _ hv _ hrun
      simp [c_ref_run] at hrun
      omega
  | cons op rest ih =>
      intro v k hn hv hbound hrun
      cases op with
      | add n =>
          have hn1 : 1 ≤ n := by
            have := hn (ROp.add n) (List.mem_cons_self _ _)
            simpa [ROp.arg] using this
          have hb : v + n + sumAdds rest < ULONG_MOD := by
            simp only [sumAdds] at hbound
            omega
          have hadd : c_ref_add (some v) n = some (some (), some (uadd v n)) := by
            simp only [c_ref_add]
            rw [if_neg (by omega), if_neg (by omega)]
          simp only [c_ref_run, hadd] at hrun
          rw [uadd_eq_add v n (by omega)] at hrun
          exact ih (v + n) k (fun op h => hn op (List.mem_cons_of_mem _ h))
            (by omega) hb hrun
      | sub n =>
          have hn1 : 1 ≤ n := by
            have := hn (ROp.sub n) (List.mem_cons_self _ _)
            simpa [ROp.arg] using this
          have hb : v + sumAdds rest < ULONG_MOD := by
            simp only [sumAdds] at hbound
            omega
          by_cases hvn : v < n
          · have hsub : c_ref_sub (some v) n (some ()) = none := by
              simp only [c_ref_sub]
              rw [if_pos hvn]
            simp only [c_ref_run, hsub] at hrun
            exact Option.noConfusion hrun
          · have hvM : v < ULONG_MOD := by omega
            have hsub : c_ref_sub (some v) n (some ())
                = some (none, some (v - n), if v = n then some () else none) := by
              simp only [c_ref_sub]
              rw [if_neg hvn, usub_eq_sub v n hvM (Nat.not_lt.mp hvn)]
            by_cases heq : v = n
            · rw [if_pos heq] at hsub
              simp only [c_ref_run, hsub] at hrun
              have hz : v - n = 0 := by omega
              rw [hz] at hrun
              cases rest with
              | nil =>
                  simp [c_ref_run] at hrun
                  omega
              | cons op2 rest2 =>
                  have hn2 : 1 ≤ ROp.arg op2 := hn op2 (by simp)
                  have h0 : c_ref_run (op2 :: rest2) 0 = none := by
                    cases op2 with
                    | add m =>
                        have hm : 1 ≤ m := by simpa [ROp.arg] using hn2
                        have : c_ref_add (some 0) m = none := by
                          simp only [c_ref_add]
                          rw [if_neg (by omega)]
                          simp
                        simp only [c_ref_run, this]
                    | sub m =>
                        have hm : 1 ≤ m := by simpa [ROp.arg] using hn2
                        have : c_ref_sub (some 0) m (some ()) = none := by
                          simp only [c_ref_sub]
                          rw [if_pos (by omega)]
                        simp only [c_ref_run, this]
                  rw [h0] at hrun
                  simp at hrun
            · rw [if_neg heq] at hsub
              simp only [c_ref_run, hsub] at hrun
              cases hres : c_ref_run rest (v - n) with
              | none =>
                  rw [hres] at hrun
                  simp at hrun
              | some p =>
                  obtain ⟨fin, k2⟩ := p
                  rw [hres] at hrun
                  simp only [Option.isSome_none, Bool.false_eq_true, if_false,
                    Nat.add_zero, Option.some.injEq, Prod.mk.injEq] at hrun
                  obtain ⟨hfin, hk⟩ := hrun
                  subst hfin
                  subst hk
                  exact ih (v - n) k2 (fun op h => hn op (List.mem_cons_of_mem _ h))
                    (by omega) (by omega) hres

/-- C9: across any interleaving of concurrent `c_ref_add`/`c_ref_sub` calls
on one counter (each operation is a single atomic read-modify-write, so an
interleaving is a sequence), with all amounts nonzero, no `unsigned long`
overflow, and the releases summing to exactly the initial allotment (the
history runs the counter from its initial value 1 down to exactly 0 without
any assertion failure), the on-zero callback is invoked exactly once. -/
theorem c_ref_callback_once (ops : List ROp) (k : Nat)
    (hn : ∀ op ∈ ops, 1 ≤ ROp.arg op)
    (hbound : 1 + sumAdds ops < ULONG_MOD)
    (hrun : c_ref_run ops 1 = some (0, k)) : k = 1 :=
  c_ref_run_zero_once ops 1 k hn (le_refl 1) hbound hrun

/-- Witness for `c_ref_callback_once` on the history add 1, sub 2. -/
theorem c_ref_callback_once_witness :
    c_ref_run [ROp.add 1, ROp.sub 2] 1 = some (0, 1) ∧ (1 : Nat) = 1 := by
  constructor
  · decide
  · exact c_ref_callback_once [ROp.add 1, ROp.sub 2] 1 (by decide) (by decide)
      (by decide)

/-!
Intrusive doubly-linked list (c-list.h).  A `CListEntry` is embedded in a
caller-owned structure; we model the set of entries as a heap, a total
function from addresses (`Nat`) to entry values, and pointers between
entries as `Option Nat` (`none` is NULL).  The two pointer fields of the
list header live in a `CList` value.  Assertion failures again show up as
`none` results.
-/

/-- Model of `struct CListEntry`: the two embedded pointer fields. -/
structure CListEntry where
  prev : Option Nat
  next : Option Nat
deriving DecidableEq, Repr

/-- Model of `struct CList`: the list header. -/
structure CList where
  first : Option Nat
  last : Option Nat
deriving DecidableEq, Repr

/-- The heap of entries: the entry value stored at each address. -/
def Heap : Type := Nat → CListEntry

/-- Store a new entry value at address `a`. -/
def hupd (h : Heap) (a : Nat) (e : CListEntry) : Heap :=
  fun b => if b = a then e else h b

/-- Write the `prev` field of the entry at address `a`. -/
def setPrev (h : Heap) (a : Nat) (p : Option Nat) : Heap :=
  hupd h a ⟨p, (h a).next⟩

/-- Write the `next` field of the entry at address `a`. -/
def setNext (h : Heap) (a : Nat) (p : Option Nat) : Heap :=
  hupd h a ⟨(h a).prev, p⟩

/-- Model of `c_list_init`: `*list = (CList){}` makes both header fields
NULL.  (A NULL list pointer is a no-op in the source; the header is modelled
by value, so only the non-NULL case arises.) -/
def c_list_init : CList := ⟨none, none⟩

/-- Model of `c_list_entry_init(entry)`: point the entry at itself in both
fields (the unlinked sentinel).  A NULL entry pointer is a no-op. -/
def c_list_entry_init (h : Heap) (e : Option Nat) : Heap :=
  match e with
  | none => h
  | some a => hupd h a ⟨some a, some a⟩

/-- Model of `c_list_entry_is_linked(e)`: `e && e->prev != e`. -/
def c_list_entry_is_linked (h : Heap) (e : Option Nat) : Bool :=
  match e with
  | none => false
  | some a => (h a).prev != some a

/-- Model of `c_list_prepend(list, entry)`.  Mirrors the source write for
write: on the empty list, `list->last = entry; entry->next = NULL;`, on a
non-empty list, `list->first->prev = entry; entry->next = list->first;`,
then in both cases `entry->prev = NULL; list->first = entry;`.  The asserts
(`!is_linked(entry)`, and the header consistency checks) abort. -/
def c_list_prepend (l : CList) (h : Heap) (e : Nat) : Option (CList × Heap) :=
  if c_list_entry_is_linked h (some e) then none
  else
    match l.last with
    | none =>
        match l.first with
        | some _ => none
        | none =>
            some (⟨some e, some e⟩, setPrev (setNext h e none) e none)
    | some _ =>
        match l.first with
        | none => none
        | some fa =>
            some (⟨some e, l.last⟩,
                  setPrev (setNext (setPrev h fa (some e)) e (some fa)) e none)

/-- Model of `c_list_append(list, entry)`, symmetric to `c_list_prepend`:
on the empty list, `list->first = entry; entry->prev = NULL;`, on a
non-empty list, `list->last->next = entry; entry->prev = list->last;`, then
in both cases `entry->next = NULL; list->last = entry;`. -/
def c_list_append (l : CList) (h : Heap) (e : Nat) : Option (CList × Heap) :=
  if c_list_entry_is_linked h (some e) then none
  else
    match l.first with
    | none =>
        match l.last with
        | some _ => none
        | none =>
            some (⟨some e, some e⟩, setNext (setPrev h e none) e none)
    | some _ =>
        match l.last with
        | none => none
        | some la =>
            some (⟨l.first, some e⟩,
                  setNext (setPrev (setNext h la (some e)) e (some la)) e none)

/-- Model of `c_list_first(list)`: returns `list->first` after asserting
`!list->first == !list->last`. -/
def c_list_first (l : CList) : Option (Option Nat) :=
  if l.first.isNone = l.last.isNone then some l.first else none

/-- Model of `c_list_last(list)`: returns `list->last` after asserting
`!list->first == !list->last`. -/
def c_list_last (l : CList) : Option (Option Nat) :=
  if l.first.isNone = l.last.isNone then some l.last else none

/-- Model of `c_list_entry_prev(entry)`: the neighbor, or NULL when the
entry is unlinked. -/
def c_list_entry_prev (h : Heap) (e : Option Nat) : Option Nat :=
  match e with
  | none => none
  | some a => if c_list_entry_is_linked h (some a) then (h a).prev else none

/-- Model of `c_list_entry_next(entry)`: the neighbor, or NULL when the
entry is unlinked. -/
def c_list_entry_next (h : Heap) (e : Option Nat) : Option Nat :=
  match e with
  | none => none
  | some a => if c_list_entry_is_linked h (some a) then (h a).next else none

/-- Model of `c_list_remove(list, entry)`.  An unlinked entry returns
immediately (idempotent removal).  Otherwise the source asserts that the
list is non-empty, splices the entry out of the first/next chain, then out
of the last/prev chain (each step asserting the endpoint encoding), and
finally re-initializes the entry to the unlinked sentinel. -/
def c_list_remove (l : CList) (h : Heap) (e : Nat) : Option (CList × Heap) :=
  if c_list_entry_is_linked h (some e) = false then some (l, h)
  else
    match l.first, l.last with
    | some _, some _ =>
        let s1 : Option (CList × Heap) :=
          if l.first = some e then
            if (h e).prev ≠ none then none
            else some (⟨(h e).next, l.last⟩, h)
          else
            match (h e).prev with
            | none => none
            | some pa => some (l, setNext h pa (h e).next)
        match s1 with
        | none => none
        | some (l1, h1) =>
            let s2 : Option (CList × Heap) :=
              if l1.last = some e then
                if (h1 e).next ≠ none then none
                else some (⟨l1.first, (h1 e).prev⟩, h1)
              else
                match (h1 e).next with
                | none => none
                | some na => some (l1, setPrev h1 na (h1 e).prev)
            match s2 with
            | none => none
            | some (l2, h2) => some (l2, c_list_entry_init h2 (some e))
    | _, _ => none

/-- The heap in which every entry is initialized and unlinked (each address
self-looped), the starting point of the concrete scenarios. -/
def allUnlinked : Heap := fun a => ⟨some a, some a⟩

/-- Linkage only depends on the entry's own heap cell. -/
theorem is_linked_agree (h h2 : Heap) (x : Nat) (hx : h2 x = h x) :
    c_list_entry_is_linked h2 (some x) = c_list_entry_is_linked h (some x) := by
  simp [c_list_entry_is_linked, hx]

/-- C5: for every heap and every four pairwise-distinct unlinked links
`a`, `b`, `c`, `d` (A, B, C, D), appending `a`, `b`, `c` to an empty list
makes the traversal from `c_list_first` via `c_list_entry_next` visit
`a`, `b`, `c` in that order and then end; additionally prepending `d` makes
the traversal visit `d`, `a`, `b`, `c` and then end. -/
theorem c_list_append_order (a b c d : Nat) (h : Heap)
    (hab : a ≠ b) (hac : a ≠ c) (had : a ≠ d)
    (hbc : b ≠ c) (hbd : b ≠ d) (hcd : c ≠ d)
    (ha : c_list_entry_is_linked h (some a) = false)
    (hb : c_list_entry_is_linked h (some b) = false)
    (hc : c_list_entry_is_linked h (some c) = false)
    (hd : c_list_entry_is_linked h (some d) = false) :
    ((c_list_append c_list_init h a).bind fun s1 =>
     (c_list_append s1.1 s1.2 b).bind fun s2 =>
     (c_list_append s2.1 s2.2 c).map fun s3 =>
       (c_list_first s3.1,
        c_list_entry_next s3.2 (some a),
        c_list_entry_next s3.2 (some b),
        c_list_entry_next s3.2 (some c)))
      = some (some (some a), some b, some c, none)
    ∧ ((c_list_append c_list_init h a).bind fun s1 =>
       (c_list_append s1.1 s1.2 b).bind fun s2 =>
       (c_list_append s2.1 s2.2 c).bind fun s3 =>
       (c_list_prepend s3.1 s3.2 d).map fun s4 =>
         (c_list_first s4.1,
          c_list_entry_next s4.2 (some d),
          c_list_entry_next s4.2 (some a),
          c_list_entry_next s4.2 (some b),
          c_list_entry_next s4.2 (some c)))
        = some (some (some d), some a, some b, some c, none) := by
  have hba : b ≠ a := Ne.symm hab
  have hca : c ≠ a := Ne.symm hac
  have hda : d ≠ a := Ne.symm had
  have hcb : c ≠ b := Ne.symm hbc
  have hdb : d ≠ b := Ne.symm hbd
  have hdc : d ≠ c := Ne.symm hcd
  have h1eq : c_list_append c_list_init h a
      = some (⟨some a, some a⟩, setNext (setPrev h a none) a none) := by
    simp only [c_list_append, c_list_init]
    rw [if_neg (by simp [ha])]
  set h1 : Heap := setNext (setPrev h a none) a none with h1def
  have h1a : h1 a = ⟨none, none⟩ := by simp [h1def, setNext, setPrev, hupd]
  have h1b : h1 b = h b := by simp [h1def, setNext, setPrev, hupd, hba]
  have h1c : h1 c = h c := by simp [h1def, setNext, setPrev, hupd, hca]
  have h1d : h1 d = h d := by simp [h1def, setNext, setPrev, hupd, hda]
  have hlb : c_list_entry_is_linked h1 (some b) = false := by
    rw [is_linked_agree h h1 b h1b]
    exact hb
  have h2eq : c_list_append ⟨some a, some a⟩ h1 b
      = some (⟨some a, some b⟩,
          setNext (setPrev (setNext h1 a (some b)) b (some a)) b none) := by
    simp only [c_list_append]
    rw [if_neg (by simp [hlb])]
  set h2v : Heap := setNext (setPrev (setNext h1 a (some b)) b (some a)) b none
    with h2def
  have h2a : h2v a = ⟨none, some b⟩ := by
    simp [h2def, setNext, setPrev, hupd, hab, h1a]
  have h2b : h2v b = ⟨some a, none⟩ := by
    simp [h2def, setNext, setPrev, hupd]
  have h2c : h2v c = h c := by
    simp [h2def, setNext, setPrev, hupd, hca, hcb, h1c]
  have h2d : h2v d = h d := by
    simp [h2def, setNext, setPrev, hupd, hda, hdb, h1d]
  have hlc : c_list_entry_is_linked h2v (some c) = false := by
    rw [is_linked_agree h h2v c h2c]
    exact hc
  have h3eq : c_list_append ⟨some a, some b⟩ h2v c
      = some (⟨some a, some c⟩,
          setNext (setPrev (setNext h2v b (some c)) c (some b)) c none) := by
    simp only [c_list_append]
    rw [if_neg (by simp [hlc])]
  set h3v : Heap := setNext (setPrev (setNext h2v b (some c)) c (some b)) c none
    with h3def
  have h3a : h3v a = ⟨none, some b⟩ := by
    simp [h3def, setNext, setPrev, hupd, hac, hab, h2a]
  have h3b : h3v b = ⟨some a, some c⟩ := by
    simp [h3def, setNext, setPrev, hupd, hbc, h2b]
  have h3c : h3v c = ⟨some b, none⟩ := by
    simp [h3def, setNext, setPrev, hupd]
  have h3d2 : h3v d = h d := by
    simp [h3def, setNext, setPrev, hupd, hdb, hdc, h2d]
  have hld : c_list_entry_is_linked h3v (some d) = false := by
    rw [is_linked_agree h h3v d h3d2]
    exact hd
  have h4eq : c_list_prepend ⟨some a, some c⟩ h3v d
      = some (⟨some d, some c⟩,
          setPrev (setNext (setPrev h3v a (some d)) d (some a)) d none) := by
    simp only [c_list_prepend]
    rw [if_neg (by simp [hld])]
  set h4v : Heap := setPrev (setNext (setPrev h3v a (some d)) d (some a)) d none
    with h4def
  have h4d : h4v d = ⟨none, some a⟩ := by
    simp [h4def, setNext, setPrev, hupd]
  have h4a : h4v a = ⟨some d, some b⟩ := by
    simp [h4def, setNext, setPrev, hupd, had, h3a]
  have h4b : h4v b = ⟨some a, some c⟩ := by
    simp [h4def, setNext, setPrev, hupd, hbd, hba, h3b]
  have h4c : h4v c = ⟨some b, none⟩ := by
    simp [h4def, setNext, setPrev, hupd, hcd, hca, h3c]
  have hn3a : c_list_entry_next h3v (some a) = some b := by
    simp [c_list_entry_next, c_list_entry_is_linked, h3a]
  have hn3b : c_list_entry_next h3v (some b) = some c := by
    simp [c_list_entry_next, c_list_entry_is_linked, h3b, hab]
  have hn3c : c_list_entry_next h3v (some c) = none := by
    simp [c_list_entry_next, c_list_entry_is_linked, h3c, hbc]
  have hn4d : c_list_entry_next h4v (some d) = some a := by
    simp [c_list_entry_next, c_list_entry_is_linked, h4d]
  have hn4a : c_list_entry_next h4v (some a) = some b := by
    simp [c_list_entry_next, c_list_entry_is_linked, h4a, hda]
  have hn4b : c_list_entry_next h4v (some b) = some c := by
    simp [c_list_entry_next, c_list_entry_is_linked, h4b, hab]
  have hn4c : c_list_entry_next h4v (some c) = none := by
    simp [c_list_entry_next, c_list_entry_is_linked, h4c, hbc]
  constructor
  · simp [h1eq, h2eq, h3eq, c_list_first, hn3a, hn3b, hn3c]
  · simp [h1eq, h2eq, h3eq, h4eq, c_list_first, hn4d, hn4a, hn4b, hn4c]

/-- Witness for `c_list_append_order` at addresses 0, 1, 2, 3 in the
all-unlinked heap. -/
theorem c_list_append_order_witness :
    ((c_list_append c_list_init allUnlinked 0).bind fun s1 =>
     (c_list_append s1.1 s1.2 1).bind fun s2 =>
     (c_list_append s2.1 s2.2 2).map fun s3 =>
       (c_list_first s3.1,
        c_list_entry_next s3.2 (some 0),
        c_list_entry_next s3.2 (some 1),
        c_list_entry_next s3.2 (some 2)))
      = some (some (some 0), some 1, some 2, none)
    ∧ ((c_list_append c_list_init allUnlinked 0).bind fun s1 =>
       (c_list_append s1.1 s1.2 1).bind fun s2 =>
       (c_list_append s2.1 s2.2 2).bind fun s3 =>
       (c_list_prepend s3.1 s3.2 3).map fun s4 =>
         (c_list_first s4.1,
          c_list_entry_next s4.2 (some 3),
          c_list_entry_next s4.2 (some 0),
          c_list_entry_next s4.2 (some 1),
          c_list_entry_next s4.2 (some 2)))
        = some (some (some 3), some 0, some 1, some 2, none) :=
  c_list_append_order 0 1 2 3 allUnlinked (by decide) (by decide) (by decide)
    (by decide) (by decide) (by decide) (by decide) (by decide) (by decide)
    (by decide)

/-- Removing an unlinked entry is a no-op that cannot abort. -/
theorem c_list_remove_unlinked (l : CList) (h : Heap) (e : Nat)
    (he : c_list_entry_is_linked h (some e) = false) :
    c_list_remove l h e = some (l, h) := by
  simp only [c_list_remove]
  rw [if_pos he]

/-- Re-initializing an entry leaves it unlinked. -/
theorem c_list_entry_init_unlinked (h : Heap) (e : Nat) :
    c_list_entry_is_linked (c_list_entry_init h (some e)) (some e) = false := by
  simp [c_list_entry_is_linked, c_list_entry_init, hupd]

/-- Whenever `c_list_remove` returns, the removed entry is unlinked in the
resulting heap (either it already was, or it was re-initialized). -/
theorem c_list_remove_result_unlinked (l : CList) (h : Heap) (e : Nat)
    (l2 : CList) (h2 : Heap) (hrem : c_list_remove l h e = some (l2, h2)) :
    c_list_entry_is_linked h2 (some e) = false := by
  by_cases hl : c_list_entry_is_linked h (some e) = false
  · rw [c_list_remove_unlinked l h e hl] at hrem
    simp only [Option.some.injEq, Prod.mk.injEq] at hrem
    obtain ⟨h1, h2eq⟩ := hrem
    subst h2eq
    exact hl
  · simp only [c_list_remove] at hrem
    rw [if_neg hl] at hrem
    split at hrem
    · split at hrem
      · exact Option.noConfusion hrem
      · split at hrem
        · exact Option.noConfusion hrem
        · simp only [Option.some.injEq, Prod.mk.injEq] at hrem
          obtain ⟨h1, h2eq⟩ := hrem
          subst h2eq
          exact c_list_entry_init_unlinked _ e
    · exact Option.noConfusion hrem

/-- C6: removal is idempotent.  Removing an unlinked entry (one that was
initialized but never linked, or one already removed) is a no-op leaving
the list and the heap exactly as they were, and after any successful
removal a second removal of the same entry changes nothing. -/
theorem c_list_remove_idem :
    (∀ (l : CList) (h : Heap) (e : Nat),
      c_list_entry_is_linked h (some e) = false →
        c_list_remove l h e = some (l, h))
    ∧ (∀ (l : CList) (h : Heap) (e : Nat) (l2 : CList) (h2 : Heap),
        c_list_remove l h e = some (l2, h2) →
          c_list_remove l2 h2 e = some (l2, h2)) := by
  constructor
  · exact c_list_remove_unlinked
  · intro l h e l2 h2 hrem
    exact c_list_remove_unlinked l2 h2 e
      (c_list_remove_result_unlinked l h e l2 h2 hrem)

/-- Witness for `c_list_remove_idem`: removing the never-linked entry 5 from
the empty list, then removing it again. -/
theorem c_list_remove_idem_witness :
    c_list_remove c_list_init allUnlinked 5 = some (c_list_init, allUnlinked)
    ∧ c_list_remove c_list_init allUnlinked 5
        = some (c_list_init, allUnlinked) := by
  constructor
  · exact c_list_remove_idem.1 c_list_init allUnlinked 5 (by decide)
  · exact c_list_remove_idem.2 c_list_init allUnlinked 5 c_list_init allUnlinked
      (c_list_remove_idem.1 c_list_init allUnlinked 5 (by decide))

/-- C8: appending a single entry to an empty list leaves that sole element
with `prev = next = NULL` (never self-referential) while
`c_list_entry_is_linked` reports it as linked; the self-loop encoding
(`prev == self`) characterizes exactly the unlinked state. -/
theorem c_list_sole_element_not_self_loop :
    (∀ (h : Heap) (e : Nat), c_list_entry_is_linked h (some e) = false →
      ∃ (l2 : CList) (h2 : Heap),
        c_list_append c_list_init h e = some (l2, h2)
        ∧ (h2 e).prev = none ∧ (h2 e).next = none
        ∧ c_list_entry_is_linked h2 (some e) = true)
    ∧ (∀ (h : Heap) (a : Nat),
        c_list_entry_is_linked h (some a) = false ↔ (h a).prev = some a) := by
  constructor
  · intro h e he
    refine ⟨⟨some e, some e⟩, setNext (setPrev h e none) e none, ?_, ?_, ?_, ?_⟩
    · simp only [c_list_append, c_list_init]
      rw [if_neg (by simp [he])]
    · simp [setNext, setPrev, hupd]
    · simp [setNext, setPrev, hupd]
    · simp [c_list_entry_is_linked, setNext, setPrev, hupd]
  · intro h a
    simp [c_list_entry_is_linked, bne]

/-- Witness for `c_list_sole_element_not_self_loop` at the all-unlinked heap
and address 0. -/
theorem c_list_sole_element_not_self_loop_witness :
    (∃ (l2 : CList) (h2 : Heap),
      c_list_append c_list_init allUnlinked 0 = some (l2, h2)
      ∧ (h2 0).prev = none ∧ (h2 0).next = none
      ∧ c_list_entry_is_linked h2 (some 0) = true)
    ∧ (c_list_entry_is_linked allUnlinked (some 0) = false
        ↔ (allUnlinked 0).prev = some 0) := by
  constructor
  · exact c_list_sole_element_not_self_loop.1 allUnlinked 0 (by decide)
  · exact c_list_sole_element_not_self_loop.2 allUnlinked 0

/-- A pointer field touched by a list operation: one of the two header
fields, or a field of the entry at a given address. -/
inductive PField where
  | listFirst
  | listLast
  | entryPrev (a : Nat)
  | entryNext (a : Nat)
deriving DecidableEq, Repr

/-- Instrumented model of `c_list_prepend`: same behaviour as
`c_list_prepend`, additionally returning the sequence of pointer fields the
source writes, in program order.  Empty list: `list->last`, `entry->next`,
`entry->prev`, `list->first`.  Non-empty list: `list->first->prev`,
`entry->next`, `entry->prev`, `list->first`. -/
def c_list_prepend_traced (l : CList) (h : Heap) (e : Nat) :
    Option (CList × Heap × List PField) :=
  if c_list_entry_is_linked h (some e) then none
  else
    match l.last with
    | none =>
        match l.first with
        | some _ => none
        | none =>
            some (⟨some e, some e⟩, setPrev (setNext h e none) e none,
                  [.listLast, .entryNext e, .entryPrev e, .listFirst])
    | some _ =>
        match l.first with
        | none => none
        | some fa =>
            some (⟨some e, l.last⟩,
                  setPrev (setNext (setPrev h fa (some e)) e (some fa)) e none,
                  [.entryPrev fa, .entryNext e, .entryPrev e, .listFirst])

/-- The instrumentation agrees with the plain model of `c_list_prepend`. -/
theorem c_list_prepend_traced_agrees (l : CList) (h : Heap) (e : Nat) :
    c_list_prepend l h e
      = (c_list_prepend_traced l h e).map (fun r => (r.1, r.2.1)) := by
  simp only [c_list_prepend, c_list_prepend_traced]
  split
  · rfl
  · match l with
    | ⟨none, none⟩ => rfl
    | ⟨some _, none⟩ => rfl
    | ⟨none, some _⟩ => rfl
    | ⟨some _, some _⟩ => rfl

/-- C7, counterexample: prepending the never-linked entry 0 to the empty
list writes 4 distinct pointer fields (`list->last`, `entry->next`,
`entry->prev`, `list->first`), so "touches at most 3 pointer fields" is
false already on the empty list. -/
theorem c_list_prepend_touches_cex :
    (c_list_prepend_traced c_list_init allUnlinked 0).map
        (fun r => r.2.2.dedup.length) = some 4
    ∧ ¬ (4 ≤ 3) := by
  constructor
  · decide
  · decide

/-- C7 (amended): every successful `c_list_prepend` writes at most 4
distinct pointer fields across the list header, the new link, and the old
first link (and exactly the 4 program-order writes listed in the trace). -/
theorem c_list_prepend_touches (l : CList) (h : Heap) (e : Nat)
    (r : CList × Heap × List PField)
    (hp : c_list_prepend_traced l h e = some r) :
    r.2.2.dedup.length ≤ 4 := by
  have hsub : r.2.2.dedup.length ≤ r.2.2.length :=
    List.Sublist.length_le (List.dedup_sublist _)
  have hlen : r.2.2.length = 4 := by
    simp only [c_list_prepend_traced] at hp
    split at hp
    · exact Option.noConfusion hp
    · split at hp
      · split at hp
        · exact Option.noConfusion hp
        · simp only [Option.some.injEq] at hp
          subst hp
          rfl
      · split at hp
        · exact Option.noConfusion hp
        · simp only [Option.some.injEq] at hp
          subst hp
          rfl
  omega

/-- Witness for `c_list_prepend_touches` on the empty list and entry 0. -/
theorem c_list_prepend_touches_witness :
    c_list_prepend_traced c_list_init allUnlinked 0
        = some (⟨some 0, some 0⟩, setPrev (setNext allUnlinked 0 none) 0 none,
                [.listLast, .entryNext 0, .entryPrev 0, .listFirst])
    ∧ ([PField.listLast, .entryNext 0, .entryPrev 0,
        .listFirst] : List PField).dedup.length ≤ 4 := by
  constructor
  · simp only [c_list_prepend_traced, c_list_init]
    rw [if_neg (by decide)]
  · exact c_list_prepend_touches c_list_init allUnlinked 0 _
      (by simp only [c_list_prepend_traced, c_list_init]; rw [if_neg (by decide)])

/-- First address of a segment, or the fallback pointer `q` when the
segment is empty. -/
def startPtr (q : Option Nat) (ys : List Nat) : Option Nat :=
  match ys with
  | [] => q
  | b :: _ => some b

/-- Last address of a segment, or the fallback pointer `p` when the segment
is empty. -/
def endPtr (p : Option Nat) (xs : List Nat) : Option Nat :=
  match xs.getLast? with
  | none => p
  | some a => some a

/-- The doubly-linked chain predicate: the addresses `xs` are linked in
order in heap `h`, the first entry's `prev` is `p`, each entry's `next` is
its successor, and the last entry's `next` is `q` (each entry's `prev` is
its predecessor). -/
def segChain (h : Heap) : Option Nat → List Nat → Option Nat → Prop
  | _, [], _ => True
  | p, a :: rest, q =>
      (h a).prev = p ∧ (h a).next = startPtr q rest ∧ segChain h (some a) rest q

/-- The representation predicate of the spec invariant: the header points
at the two ends of the chain `xs` (both NULL exactly when `xs` is empty),
walking `next` from `first` visits `xs` in order and reaches `last`,
walking `prev` from `last` reaches `first`, and every adjacent pair is
mutually consistent. -/
def rep (l : CList) (h : Heap) (xs : List Nat) : Prop :=
  l.first = xs.head? ∧ l.last = xs.getLast? ∧ segChain h none xs none

/-- The list invariant: some duplicate-free chain of addresses represents
the list. -/
def CListInv (l : CList) (h : Heap) : Prop :=
  ∃ xs, xs.Nodup ∧ rep l h xs

theorem startPtr_append (q : Option Nat) (t ys : List Nat) :
    startPtr q (t ++ ys) = startPtr (startPtr q ys) t := by
  cases t <;> rfl

theorem endPtr_cons (p : Option Nat) (a : Nat) (t : List Nat) :
    endPtr p (a :: t) = endPtr (some a) t := by
  cases t with
  | nil => rfl
  | cons b t2 =>
      simp only [endPtr, List.getLast?_cons_cons]
      cases hgl : (b :: t2).getLast? with
      | none => simp at hgl
      | some x => rfl

/-- A list whose optional last element is `some a` contains `a`. -/
theorem mem_of_getLast?_eq (xs : List Nat) (a : Nat)
    (hx : xs.getLast? = some a) : a ∈ xs := by
  obtain ⟨hne, hEq⟩ := List.mem_getLast?_eq_getLast (Option.mem_def.mpr hx)
  exact hEq ▸ List.getLast_mem hne

theorem segChain_append (h : Heap) : ∀ (xs ys : List Nat) (p q : Option Nat),
    segChain h p (xs ++ ys) q ↔
      segChain h p xs (startPtr q ys) ∧ segChain h (endPtr p xs) ys q := by
  intro xs
  induction xs with
  | nil =>
      intro ys p q
      simp [segChain, endPtr]
  | cons a t ih =>
      intro ys p q
      simp only [List.cons_append, segChain, startPtr_append, endPtr_cons,
        List.append_eq]
      rw [ih ys (some a) q]
      tauto

/-- Heaps that agree on the members of a chain satisfy the same chain
predicate. -/
theorem segChain_agree (h h2 : Heap) : ∀ (xs : List Nat) (p q : Option Nat),
    (∀ a ∈ xs, h2 a = h a) → segChain h p xs q → segChain h2 p xs q := by
  intro xs
  induction xs with
  | nil =>
      intro p q _ _
      trivial
  | cons a t ih =>
      intro p q hag hseg
      simp only [segChain] at hseg ⊢
      obtain ⟨hs1, hs2, hs3⟩ := hseg
      refine ⟨?_, ?_, ?_⟩
      · rw [hag a (by simp)]
        exact hs1
      · rw [hag a (by simp)]
        exact hs2
      · exact ih (some a) q (fun b hb => hag b (by simp [hb])) hs3

/-- Redirecting the `next` field of the last element of a chain (leaving
everything else in the chain alone) re-terminates the chain at the new
pointer. -/
theorem segChain_snoc_next (h h2 : Heap) : ∀ (xs : List Nat) (p q1 q : Option Nat)
    (la : Nat), xs.getLast? = some la → xs.Nodup →
    (∀ a ∈ xs, a ≠ la → h2 a = h a) →
    (h2 la).prev = (h la).prev → (h2 la).next = q →
    segChain h p xs q1 → segChain h2 p xs q := by
  intro xs
  induction xs with
  | nil =>
      intro p q1 q la hla
      exact absurd hla (by simp)
  | cons a t ih =>
      intro p q1 q la hla hnd hag hprev hnext hseg
      simp only [segChain] at hseg ⊢
      obtain ⟨hs1, hs2, hs3⟩ := hseg
      cases t with
      | nil =>
          have hala : a = la := by simpa using hla
          subst hala
          exact ⟨by rw [hprev]; exact hs1, by rw [hnext]; rfl, trivial⟩
      | cons b t2 =>
          have hla2 : (b :: t2).getLast? = some la := by
            rw [← List.getLast?_cons_cons]
            exact hla
          have hmem : la ∈ b :: t2 := mem_of_getLast?_eq _ _ hla2
          have hane : a ≠ la := by
            intro hEq
            exact (List.nodup_cons.mp hnd).1 (hEq ▸ hmem)
          refine ⟨?_, ?_, ?_⟩
          · rw [hag a (by simp) hane]
            exact hs1
          · rw [hag a (by simp) hane]
            simpa [startPtr] using hs2
          · exact ih (some a) q1 q la hla2 (List.nodup_cons.mp hnd).2
              (fun x hx hne => hag x (by simp [hx]) hne) hprev hnext hs3

/-- Every member of a duplicate-free chain is linked (its `prev` field is
never the self-loop sentinel), provided the incoming pointer is not a
member. -/
theorem segChain_linked (h : Heap) : ∀ (xs : List Nat) (p : Option Nat),
    segChain h p xs none → xs.Nodup → (∀ b, p = some b → b ∉ xs) →
    ∀ a ∈ xs, c_list_entry_is_linked h (some a) = true := by
  intro xs
  induction xs with
  | nil =>
      intro p _ _ _ a ha
      exact absurd ha (by simp)
  | cons c t ih =>
      intro p hseg hnd hp a ha
      simp only [segChain] at hseg
      obtain ⟨hs1, hs2, hs3⟩ := hseg
      rcases List.mem_cons.mp ha with rfl | hat
      · simp only [c_list_entry_is_linked]
        rw [hs1]
        cases p with
        | none => rfl
        | some b =>
            have hbm : b ∉ a :: t := hp b rfl
            have hba : b ≠ a := fun hEq => hbm (by simp [hEq])
            simp [hba]
      · refine ih (some c) hs3 (List.nodup_cons.mp hnd).2 ?_ a hat
        intro b hb
        injection hb with hb2
        subst hb2
        exact (List.nodup_cons.mp hnd).1

/-- An entry that is unlinked cannot be a member of a duplicate-free
represented chain. -/
theorem rep_not_mem (h : Heap) (xs : List Nat) (e : Nat)
    (hnd : xs.Nodup) (hseg : segChain h none xs none)
    (he : c_list_entry_is_linked h (some e) = false) : e ∉ xs := by
  intro hm
  have := segChain_linked h xs none hseg hnd (by simp) e hm
  rw [he] at this
  exact Bool.noConfusion this

/-- Preservation of the invariant by `c_list_prepend`: under the documented
precondition (the entry is unlinked), prepend succeeds and the resulting
state is again a well-formed list, represented by the chain `e :: xs`. -/
theorem c_list_prepend_inv (l : CList) (h : Heap) (xs : List Nat) (e : Nat)
    (hnd : xs.Nodup) (hrep : rep l h xs)
    (he : c_list_entry_is_linked h (some e) = false) :
    ∃ l2 h2, c_list_prepend l h e = some (l2, h2) ∧ CListInv l2 h2 := by
  obtain ⟨hfst, hlst, hseg⟩ := hrep
  have hemem : e ∉ xs := rep_not_mem h xs e hnd hseg he
  cases xs with
  | nil =>
      have hfst2 : l.first = none := by simpa using hfst
      have hlst2 : l.last = none := by simpa using hlst
      refine ⟨⟨some e, some e⟩, setPrev (setNext h e none) e none, ?_, [e],
        by simp, by simp, by simp, ?_, ?_, trivial⟩
      · simp only [c_list_prepend]
        rw [if_neg (by simp [he]), hlst2, hfst2]
      · simp [setPrev, setNext, hupd]
      · simp [setPrev, setNext, hupd, startPtr]
  | cons f rest =>
      have hfst2 : l.first = some f := by simpa using hfst
      obtain ⟨la, hla⟩ : ∃ la, (f :: rest).getLast? = some la := by
        cases hgl : (f :: rest).getLast? with
        | none => simp at hgl
        | some x => exact ⟨x, rfl⟩
      have hlst2 : l.last = some la := by rw [hlst, hla]
      have hef : e ≠ f := fun hEq => hemem (by simp [hEq])
      have hfe : f ≠ e := Ne.symm hef
      obtain ⟨hsegf1, hsegf2, hsegf3⟩ := hseg
      refine ⟨⟨some e, some la⟩,
        setPrev (setNext (setPrev h f (some e)) e (some f)) e none, ?_, ?_⟩
      · simp only [c_list_prepend]
        rw [if_neg (by simp [he]), hlst2, hfst2]
      · refine ⟨e :: f :: rest, ?_, rfl, ?_, ?_, ?_, ?_, ?_, ?_⟩
        · exact List.nodup_cons.mpr ⟨hemem, hnd⟩
        · simp only [List.getLast?_cons_cons, hla]
        · simp [setPrev, setNext, hupd]
        · simp [setPrev, setNext, hupd, startPtr]
        · simp [setPrev, setNext, hupd, hfe]
        · simp only [setPrev, setNext, hupd]
          simp [hfe]
          exact hsegf2
        · have hfrest : f ∉ rest := (List.nodup_cons.mp hnd).1
          refine segChain_agree h _ rest (some f) none ?_ hsegf3
          intro a ha
          have hae : a ≠ e := fun hEq => hemem (List.mem_cons_of_mem _ (hEq ▸ ha))
          have haf : a ≠ f := fun hEq => hfrest (hEq ▸ ha)
          simp [setPrev, setNext, hupd, hae, haf]

/-- Preservation of the invariant by `c_list_append`: under the documented
precondition, append succeeds and the result is represented by `xs ++ [e]`. -/
theorem c_list_append_inv (l : CList) (h : Heap) (xs : List Nat) (e : Nat)
    (hnd : xs.Nodup) (hrep : rep l h xs)
    (he : c_list_entry_is_linked h (some e) = false) :
    ∃ l2 h2, c_list_append l h e = some (l2, h2) ∧ CListInv l2 h2 := by
  obtain ⟨hfst, hlst, hseg⟩ := hrep
  have hemem : e ∉ xs := rep_not_mem h xs e hnd hseg he
  cases xs with
  | nil =>
      have hfst2 : l.first = none := by simpa using hfst
      have hlst2 : l.last = none := by simpa using hlst
      refine ⟨⟨some e, some e⟩, setNext (setPrev h e none) e none, ?_, [e],
        by simp, by simp, by simp, ?_, ?_, trivial⟩
      · simp only [c_list_append]
        rw [if_neg (by simp [he]), hfst2, hlst2]
      · simp [setPrev, setNext, hupd]
      · simp [setPrev, setNext, hupd, startPtr]
  | cons f rest =>
      have hfst2 : l.first = some f := by simpa using hfst
      obtain ⟨la, hla⟩ : ∃ la, (f :: rest).getLast? = some la := by
        cases hgl : (f :: rest).getLast? with
        | none => simp at hgl
        | some x => exact ⟨x, rfl⟩
      have hlst2 : l.last = some la := by rw [hlst, hla]
      have hlamem : la ∈ f :: rest := mem_of_getLast?_eq _ _ hla
      have hela : e ≠ la := fun hEq => hemem (hEq ▸ hlamem)
      have hlae : la ≠ e := Ne.symm hela
      refine ⟨⟨some f, some e⟩,
        setNext (setPrev (setNext h la (some e)) e (some la)) e none, ?_, ?_⟩
      · simp only [c_list_append]
        rw [if_neg (by simp [he]), hfst2, hlst2]
      · refine ⟨(f :: rest) ++ [e], ?_, ?_, ?_, ?_⟩
        · rw [List.nodup_append]
          exact ⟨hnd, List.nodup_singleton e, by
            intro a ha hae
            simp only [List.mem_singleton] at hae
            exact hemem (hae ▸ ha)⟩
        · simp
        · rw [List.getLast?_append_cons]
          rfl
        · rw [segChain_append _ (f :: rest) [e] none none]
          constructor
          · refine segChain_snoc_next h _ (f :: rest) none none (startPtr none [e])
              la hla hnd ?_ ?_ ?_ hseg
            · intro a ha hane
              have hae : a ≠ e := fun hEq => hemem (hEq ▸ ha)
              simp [setPrev, setNext, hupd, hae, hane]
            · simp [setPrev, setNext, hupd, hlae]
            · simp [setPrev, setNext, hupd, hlae, startPtr]
          · have : endPtr none (f :: rest) = some la := by
              simp [endPtr, hla]
            rw [this]
            refine ⟨?_, ?_, trivial⟩
            · simp [setPrev, setNext, hupd]
            · simp [setPrev, setNext, hupd, startPtr]

/-- Preservation of the invariant by `c_list_remove`: removing an entry
that is unlinked, or a member of the represented chain, succeeds and leaves
a well-formed list (represented by the chain with the entry deleted). -/
theorem c_list_remove_inv (l : CList) (h : Heap) (xs : List Nat) (e : Nat)
    (hnd : xs.Nodup) (hrep : rep l h xs)
    (hmem : e ∈ xs ∨ c_list_entry_is_linked h (some e) = false) :
    ∃ l2 h2, c_list_remove l h e = some (l2, h2) ∧ CListInv l2 h2 := by
  by_cases hl : c_list_entry_is_linked h (some e) = false
  · exact ⟨l, h, c_list_remove_unlinked l h e hl, xs, hnd, hrep⟩
  · have hmem2 : e ∈ xs := by
      rcases hmem with hm | hm
      · exact hm
      · exact absurd hm hl
    obtain ⟨hfst, hlst, hseg⟩ := hrep
    obtain ⟨pre, post, rfl⟩ := List.append_of_mem hmem2
    obtain ⟨hndpre, hndcons, hdisj⟩ := List.nodup_append.mp hnd
    have hepost : e ∉ post := (List.nodup_cons.mp hndcons).1
    have hndpost : post.Nodup := (List.nodup_cons.mp hndcons).2
    have hepre : e ∉ pre := fun hm => hdisj hm (by simp)
    rw [segChain_append h pre (e :: post) none none] at hseg
    obtain ⟨hsegpre, heprev, henext, hsegpost⟩ := hseg
    simp only [startPtr] at hsegpre
    cases pre with
    | nil =>
        have hfst2 : l.first = some e := by simpa using hfst
        have heprev2 : (h e).prev = none := by simpa [endPtr] using heprev
        cases post with
        | nil =>
            have hlst2 : l.last = some e := by simpa using hlst
            have henext2 : (h e).next = none := by simpa [startPtr] using henext
            refine ⟨⟨none, none⟩, c_list_entry_init h (some e), ?_,
              [], by simp, by simp, by simp, trivial⟩
            simp only [c_list_remove]
            rw [if_neg hl, hfst2, hlst2]
            simp [heprev2, henext2, hfst2, hlst2]
        | cons q0 post2 =>
            obtain ⟨qla, hqla⟩ : ∃ qla, (q0 :: post2).getLast? = some qla := by
              cases hgl : (q0 :: post2).getLast? with
              | none => simp at hgl
              | some x => exact ⟨x, rfl⟩
            have hlst2 : l.last = some qla := by
              rw [hlst]
              simp only [List.nil_append, List.getLast?_cons_cons, hqla]
            have hqlamem : qla ∈ q0 :: post2 := mem_of_getLast?_eq _ _ hqla
            have hqlae : qla ≠ e := fun hEq => hepost (hEq ▸ hqlamem)
            have henext2 : (h e).next = some q0 := by
              simpa [startPtr] using henext
            have heq0 : e ≠ q0 := fun hEq => hepost (by simp [hEq])
            have hq0e : q0 ≠ e := Ne.symm heq0
            obtain ⟨hpq1, hpq2, hpq3⟩ := hsegpost
            refine ⟨⟨some q0, some qla⟩,
              c_list_entry_init (setPrev h q0 none) (some e), ?_, ?_⟩
            · simp only [c_list_remove]
              rw [if_neg hl, hfst2, hlst2]
              simp [heprev2, henext2, hqlae, hfst2, hlst2, setPrev, hupd]
            · refine ⟨q0 :: post2, hndpost, rfl, by simp [hqla], ?_, ?_, ?_⟩
              · simp [c_list_entry_init, setPrev, hupd, hq0e]
              · simp only [c_list_entry_init, setPrev, hupd]
                simp [hq0e]
                exact hpq2
              · refine segChain_agree h _ post2 (some q0) none ?_ hpq3
                intro a ha
                have hae : a ≠ e := fun hEq => hepost (List.mem_cons_of_mem _ (hEq ▸ ha))
                have haq0 : a ≠ q0 := fun hEq =>
                  (List.nodup_cons.mp hndpost).1 (hEq ▸ ha)
                simp [c_list_entry_init, setPrev, hupd, hae, haq0]
    | cons p0 pre2 =>
        have hfst2 : l.first = some p0 := by simpa using hfst
        have hp0e : p0 ≠ e := fun hEq => hepre (by simp [hEq])
        obtain ⟨pla, hpla⟩ : ∃ pla, (p0 :: pre2).getLast? = some pla := by
          cases hgl : (p0 :: pre2).getLast? with
          | none => simp at hgl
          | some x => exact ⟨x, rfl⟩
        have hplamem : pla ∈ p0 :: pre2 := mem_of_getLast?_eq _ _ hpla
        have heprev2 : (h e).prev = some pla := by
          rw [heprev]
          simp [endPtr, hpla]
        have hepla : e ≠ pla := fun hEq => hepre (hEq ▸ hplamem)
        have hplae : pla ≠ e := Ne.symm hepla
        cases post with
        | nil =>
            have hlst2 : l.last = some e := by
              rw [hlst, List.getLast?_append_cons]
              rfl
            have henext2 : (h e).next = none := by simpa [startPtr] using henext
            refine ⟨⟨some p0, some pla⟩,
              c_list_entry_init (setNext h pla none) (some e), ?_, ?_⟩
            · simp only [c_list_remove]
              rw [if_neg hl, hfst2, hlst2]
              simp [heprev2, henext2, hp0e, hepla, hfst2, hlst2, setNext, hupd]
            · refine ⟨p0 :: pre2, hndpre, rfl, by simp [hpla], ?_⟩
              refine segChain_snoc_next h _ (p0 :: pre2) none (some e) none
                pla hpla hndpre ?_ ?_ ?_ hsegpre
              · intro a ha hane
                have hae : a ≠ e := fun hEq => hepre (hEq ▸ ha)
                simp [c_list_entry_init, setNext, hupd, hae, hane]
              · simp [c_list_entry_init, setNext, hupd, hplae]
              · simp [c_list_entry_init, setNext, hupd, hplae]
        | cons q0 post2 =>
            obtain ⟨qla, hqla⟩ : ∃ qla, (q0 :: post2).getLast? = some qla := by
              cases hgl : (q0 :: post2).getLast? with
              | none => simp at hgl
              | some x => exact ⟨x, rfl⟩
            have hlst2 : l.last = some qla := by
              rw [hlst, List.getLast?_append_cons]
              simp only [List.getLast?_cons_cons, hqla]
            have hqlamem : qla ∈ q0 :: post2 := mem_of_getLast?_eq _ _ hqla
            have hqlae : qla ≠ e := fun hEq => hepost (hEq ▸ hqlamem)
            have henext2 : (h e).next = some q0 := by
              simpa [startPtr] using henext
            have heq0 : e ≠ q0 := fun hEq => hepost (by simp [hEq])
            have hq0e : q0 ≠ e := Ne.symm heq0
            have hq0mem : q0 ∈ e :: q0 :: post2 := by simp
            have hplaq0 : pla ≠ q0 := fun hEq =>
              hdisj hplamem (hEq ▸ hq0mem)
            have hq0pla : q0 ≠ pla := Ne.symm hplaq0
            obtain ⟨hpq1, hpq2, hpq3⟩ := hsegpost
            refine ⟨l,
              c_list_entry_init
                (setPrev (setNext h pla (some q0)) q0 (some pla)) (some e),
              ?_, ?_⟩
            · simp only [c_list_remove]
              rw [if_neg hl, hfst2, hlst2]
              simp [heprev2, henext2, hp0e, hqlae, hepla, hfst2, hlst2,
                setNext, setPrev, hupd]
            · refine ⟨(p0 :: pre2) ++ (q0 :: post2), ?_, ?_, ?_, ?_⟩
              · exact hnd.sublist
                  ((List.sublist_cons_self e (q0 :: post2)).append_left (p0 :: pre2))
              · simpa using hfst2
              · rw [List.getLast?_append_cons]
                rw [hlst2, hqla]
              · rw [segChain_append _ (p0 :: pre2) (q0 :: post2) none none]
                constructor
                · refine segChain_snoc_next h _ (p0 :: pre2) none (some e)
                    (startPtr none (q0 :: post2)) pla hpla hndpre ?_ ?_ ?_ hsegpre
                  · intro a ha hane
                    have hae : a ≠ e := fun hEq => hepre (hEq ▸ ha)
                    have haq0 : a ≠ q0 := fun hEq => hdisj (hEq ▸ ha) hq0mem
                    simp [c_list_entry_init, setNext, setPrev, hupd, hae, hane, haq0]
                  · simp [c_list_entry_init, setNext, setPrev, hupd, hplae, hplaq0]
                  · simp [c_list_entry_init, setNext, setPrev, hupd, hplae, hplaq0,
                      startPtr]
                · have hend : endPtr none (p0 :: pre2) = some pla := by
                    simp [endPtr, hpla]
                  rw [hend]
                  refine ⟨?_, ?_, ?_⟩
                  · simp [c_list_entry_init, setNext, setPrev, hupd, hq0e]
                  · simp only [c_list_entry_init, setNext, setPrev, hupd]
                    simp [hq0e, hq0pla]
                    exact hpq2
                  · refine segChain_agree h _ post2 (some q0) none ?_ hpq3
                    intro a ha
                    have hae : a ≠ e := fun hEq => hepost (List.mem_cons_of_mem _ (hEq ▸ ha))
                    have haq0 : a ≠ q0 := fun hEq =>
                      (List.nodup_cons.mp hndpost).1 (hEq ▸ ha)
                    have hapla : a ≠ pla := fun hEq =>
                      hdisj (hEq ▸ hplamem) (by simp [ha])
                    simp [c_list_entry_init, setNext, setPrev, hupd, hae, haq0, hapla]

/-- C4: every list operation preserves the list invariant.  `c_list_init`
establishes it; `c_list_prepend` and `c_list_append` preserve it for an
unlinked entry (their precondition); `c_list_remove` preserves it for an
entry that is unlinked or a member of the list.  The invariant `CListInv`
states that some duplicate-free chain represents the list: `first` is NULL
iff `last` is NULL, walking `next` from `first` reaches `last`, walking
`prev` from `last` reaches `first`, and adjacent entries point at each
other (the last conjunct spells out the first-iff-last consequence). -/
theorem c_list_ops_preserve_invariant :
    (∀ h : Heap, CListInv c_list_init h)
    ∧ (∀ (l : CList) (h : Heap) (xs : List Nat) (e : Nat), xs.Nodup →
        rep l h xs → c_list_entry_is_linked h (some e) = false →
        ∃ l2 h2, c_list_prepend l h e = some (l2, h2) ∧ CListInv l2 h2)
    ∧ (∀ (l : CList) (h : Heap) (xs : List Nat) (e : Nat), xs.Nodup →
        rep l h xs → c_list_entry_is_linked h (some e) = false →
        ∃ l2 h2, c_list_append l h e = some (l2, h2) ∧ CListInv l2 h2)
    ∧ (∀ (l : CList) (h : Heap) (xs : List Nat) (e : Nat), xs.Nodup →
        rep l h xs → (e ∈ xs ∨ c_list_entry_is_linked h (some e) = false) →
        ∃ l2 h2, c_list_remove l h e = some (l2, h2) ∧ CListInv l2 h2)
    ∧ (∀ (l : CList) (h : Heap), CListInv l h →
        (l.first = none ↔ l.last = none)) := by
  refine ⟨?_, c_list_prepend_inv, c_list_append_inv, c_list_remove_inv, ?_⟩
  · intro h
    exact ⟨[], by simp, rfl, rfl, trivial⟩
  · rintro l h ⟨xs, hnd, hfst, hlst, hseg⟩
    cases xs with
    | nil =>
        simp at hfst hlst
        rw [hfst, hlst]
    | cons f rest =>
        obtain ⟨la, hla⟩ : ∃ la, (f :: rest).getLast? = some la := by
          cases hgl : (f :: rest).getLast? with
          | none => simp at hgl
          | some x => exact ⟨x, rfl⟩
        rw [hlst, hla]
        simp at hfst
        rw [hfst]
        simp

/-- Witness for `c_list_ops_preserve_invariant` on the empty list in the
all-unlinked heap. -/
theorem c_list_ops_preserve_invariant_witness :
    CListInv c_list_init allUnlinked
    ∧ (∃ l2 h2, c_list_prepend c_list_init allUnlinked 0 = some (l2, h2)
        ∧ CListInv l2 h2)
    ∧ (∃ l2 h2, c_list_append c_list_init allUnlinked 1 = some (l2, h2)
        ∧ CListInv l2 h2)
    ∧ (∃ l2 h2, c_list_remove c_list_init allUnlinked 2 = some (l2, h2)
        ∧ CListInv l2 h2)
    ∧ (c_list_init.first = none ↔ c_list_init.last = none) := by
  have hrep : rep c_list_init allUnlinked [] := ⟨rfl, rfl, trivial⟩
  exact ⟨c_list_ops_preserve_invariant.1 allUnlinked,
    c_list_ops_preserve_invariant.2.1 c_list_init allUnlinked [] 0
      (by simp) hrep (by decide),
    c_list_ops_preserve_invariant.2.2.1 c_list_init allUnlinked [] 1
      (by simp) hrep (by decide),
    c_list_ops_preserve_invariant.2.2.2.1 c_list_init allUnlinked [] 2
      (by simp) hrep (Or.inr (by decide)),
    c_list_ops_preserve_invariant.2.2.2.2 c_list_init allUnlinked
      (c_list_ops_preserve_invariant.1 allUnlinked)⟩
